import Mathlib

/-!
Verification development for the common-lib concurrency-primitives library
(younghwanpark-vs/common-lib).  The definitions below are shallow embeddings
of the C++ sources:

* `include/common/container/SizedQueue.hpp` — bounded FIFO with
  evict-oldest-on-overflow insertion;
* `src/common/thread/Thread.cpp` — the `ThreadDetail` implementation of the
  portable thread handle (Linux branch of the priority code);
* `include/common/thread/Runnable.hpp` — the continuous worker (`Runnable`)
  and the queue-driven worker (`ActiveRunnable`), the latter embedded as an
  interleaving step relation over the dispatch loop, the producers, and
  `stop()`.
-/

set_option autoImplicit false

namespace CommonLib

/-! ### SizedQueue (include/common/container/SizedQueue.hpp)

`SizedQueue<_tp, _size>` wraps a `std::queue`; the queue contents are embedded
as a `List`, front at the head.  `_size` (the capacity `N`) is a value
parameter here. -/

/-- `SizedQueue::emplace_back`: `if(_q.size() == _size) { _q.pop(); } _q.emplace(args...)` —
if the queue already holds `N` items, drop the front, then append at the back. -/
def SizedQueue.emplace_back {α : Type} (N : Nat) (q : List α) (x : α) : List α :=
  if q.length = N then q.tail ++ [x] else q ++ [x]

/-- `SizedQueue::push_back` simply forwards to `emplace_back`. -/
def SizedQueue.push_back {α : Type} (N : Nat) (q : List α) (x : α) : List α :=
  SizedQueue.emplace_back N q x

/-- A sequence of pushes, one at a time, in list order. -/
def SizedQueue.pushAll {α : Type} (N : Nat) (q : List α) (xs : List α) : List α :=
  xs.foldl (SizedQueue.emplace_back N) q

/-! ### ThreadDetail (src/common/thread/Thread.cpp, Linux branch) -/

/-- State of one `detail::ThreadDetail`: whether the `std::thread` member is
joinable (i.e. started), the cached scheduling policy and level (the two
components of the Linux `Thread::Priority` tuple, with
`Policies::DEFAULT = SCHED_OTHER = 0` and `Level::DEFAULT = 0`), the cached
name, and the error codes logged through the `_ERROR_` macro. -/
structure ThreadSt where
  started : Bool
  policy : Nat
  level : Nat
  name : String
  log : List Nat
deriving DecidableEq

/-- `ThreadDetail::set_priority`, Linux branch (Thread.cpp lines 77-111).
`osRet` is the raw value `sched_setscheduler` returns when the call is made
(`0` on success, `-1` on failure) and `errno` its error code.  The source
tests `if(false == sched_setscheduler(...))`, i.e. it takes the error branch
exactly when `osRet = 0`; the cache update `_priority = priority` sits after
that test. -/
def ThreadDetail.set_priority (s : ThreadSt) (p : Nat × Nat) (osRet : Int)
    (errno : Nat) : ThreadSt × Bool :=
  if s.started = false then
    ({ s with policy := p.1, level := p.2 }, true)
  else if p.1 ≠ 0 ∨ p.2 ≠ 0 then
    if (0 : Int) = osRet then
      ({ s with log := s.log ++ [errno] }, false)
    else
      ({ s with policy := p.1, level := p.2 }, true)
  else
    (s, true)

/-- `ThreadDetail::get_priority`: returns the cached `_priority` tuple. -/
def ThreadDetail.get_priority (s : ThreadSt) : Nat × Nat := (s.policy, s.level)

/-- `ThreadDetail::set_name`: caches the name. -/
def ThreadDetail.set_name (s : ThreadSt) (n : String) : ThreadSt := { s with name := n }

/-- Lifecycle phase of the OS thread owned by a handle. -/
inductive ThreadPhase where
  | notStarted
  | running
  | terminated
deriving DecidableEq

/-- `ThreadDetail::join`: `if(_thread.joinable()) { _thread.join(); }` — when
the OS thread is live this blocks until it has fully terminated; when the
thread never started there is nothing to join. -/
def ThreadDetail.join : ThreadPhase → ThreadPhase
  | .notStarted => .notStarted
  | .running => .terminated
  | .terminated => .terminated

/-- The custom deleter installed by `Thread::__create`
(`obj->join(); delete obj;`): the returned phase is the phase of the OS thread
at the moment `delete` releases the handle's memory. -/
def Thread.destroy (ph : ThreadPhase) : ThreadPhase := ThreadDetail.join ph

/-- Destroying a worker (`Runnable` or `ActiveRunnable`) drops `_t`, the only
`shared_ptr` reference to the owned `Thread`, which runs the deleter installed
by `Thread::__create`. -/
def Runnable.destroy (ph : ThreadPhase) : ThreadPhase := Thread.destroy ph

/-! ### Thread body and completion future (ThreadDetail::start) -/

/-- Completion state of the `std::promise<void>` owned by `ThreadDetail`. -/
inductive FutureState (E : Type) where
  | pending
  | value
  | exception (e : E)
deriving DecidableEq

/-- Outcome of the thread body spawned by `ThreadDetail::start`
(`work(); _promise.set_value();`): there is no try/catch, so when `work()`
raises, `set_value` is skipped and the exception escapes the top-level thread
function (in C++ this aborts the process via `std::terminate`). -/
inductive BodyOutcome (E : Type) where
  | promiseSet
  | escaped (e : E)
deriving DecidableEq

/-- The thread body of `ThreadDetail::start`, applied to a work function that
either returns or raises `e`. -/
def ThreadDetail.start {E : Type} (work : Except E Unit) : BodyOutcome E :=
  match work with
  | .ok _ => .promiseSet
  | .error e => .escaped e

/-- The state of the completion future returned by `ThreadDetail::start`, as a
function of the body's outcome: it holds a value exactly when
`_promise.set_value()` ran; nothing in the source ever calls
`set_exception`. -/
def futureOf {E : Type} : BodyOutcome E → FutureState E
  | .promiseSet => .value
  | .escaped _ => .pending

/-- The loop `Runnable::run` hands to the thread:
`while(_running.load()) { __work(); }`.  `step i` is the i-th call of
`__work`; `fuel` counts how many more iterations run before `stop()` flips the
flag; an error raised by a step propagates out of the loop. -/
def Runnable.loop {E : Type} (step : Nat → Except E Unit) : Nat → Nat → Except E Unit
  | _, 0 => .ok ()
  | i, fuel + 1 =>
    match step i with
    | .ok _ => Runnable.loop step (i + 1) fuel
    | .error e => .error e

/-! ### Runnable (include/common/thread/Runnable.hpp, lines 45-163) -/

/-- The misuse error `common::exception::AlreadyRunningException`. -/
inductive RunError where
  | alreadyRunning
deriving DecidableEq

/-- State of a `Runnable` worker: the `_running` flag, the owned thread
handle (absent until `run()` executes `_t = Thread::create()`), and the
worker-level cached `_priority` and `_name`. -/
structure RunnableSt where
  running : Bool
  t : Option ThreadSt
  priority : Nat × Nat
  name : String
deriving DecidableEq

/-- `Runnable::run` (lines 68-79): throws `AlreadyRunningException` when
`_running` is already true; otherwise sets the flag, creates the handle,
pushes the cached priority and name into it (the handle is not yet started, so
both are cached there), starts it and returns its completion future.  The
second component of the result is the started thread whose completion future
the call returns. -/
def Runnable.run (s : RunnableSt) : Except RunError (RunnableSt × ThreadSt) :=
  if s.running then .error .alreadyRunning
  else
    let t0 : ThreadSt := ⟨false, 0, 0, "", []⟩
    let t1 := (ThreadDetail.set_priority t0 s.priority 0 0).1
    let t2 := ThreadDetail.set_name t1 s.name
    let t3 := { t2 with started := true }
    .ok ({ s with running := true, t := some t3 }, t3)

/-- `Runnable::set_priority` (lines 108-113; `ActiveRunnable::set_priority`,
lines 381-386, has the identical body):
`_priority = priority; if(_running.load()) return _t->set_priority(priority); else return false;`.
The `none` result models the null `_t` dereference that would occur if
`_running` were observed true before `run()` assigned `_t`. -/
def Runnable.set_priority (s : RunnableSt) (p : Nat × Nat) (osRet : Int)
    (errno : Nat) : Option (RunnableSt × Bool) :=
  let s1 := { s with priority := p }
  if s1.running then
    match s1.t with
    | some t =>
        let r := ThreadDetail.set_priority t p osRet errno
        some ({ s1 with t := some r.1 }, r.2)
    | none => none
  else
    some (s1, false)

/-- `Runnable::get_priority`: returns the worker-level cached `_priority`. -/
def Runnable.get_priority (s : RunnableSt) : Nat × Nat := s.priority

/-! ### ActiveRunnable API level (include/common/thread/Runnable.hpp, 214-425) -/

/-- API-level state of an `ActiveRunnable` worker; the dispatch loop itself is
embedded separately as the step relation below. -/
structure ActiveApiSt where
  running : Bool
  priority : Nat × Nat
  name : String
deriving DecidableEq

/-- The `AlreadyRunningException` guard of `ActiveRunnable::run`
(lines 249-256), identical to the guard in `Runnable::run`. -/
def ActiveRunnable.run (s : ActiveApiSt) : Except RunError ActiveApiSt :=
  if s.running then .error .alreadyRunning
  else .ok { s with running := true }

/-- The per-task dispatch of `ActiveRunnable::run` with a fallible work step,
specialised to a drain of the queued `(data, promiseId)` envelopes:
`promise->set_value(this->__work(std::move(data)))` has no try/catch, so an
error raised by `__work` skips `set_value` and propagates out of the dispatch
loop.  The result is the chronological fulfillment log plus, when the loop
died, the escaped error, the promise id it left unfulfilled, and the tasks
left undispatched behind it. -/
def ActiveRunnable.dispatchDrain (work : Nat → Except Nat Nat) :
    List (Nat × Nat) → List (Nat × Nat) × Option (Nat × Nat × List (Nat × Nat))
  | [] => ([], none)
  | (d, p) :: rest =>
    match work d with
    | .ok v =>
        let r := ActiveRunnable.dispatchDrain work rest
        ((p, v) :: r.1, r.2)
    | .error e => ([], some (e, p, rest))

/-! ### ActiveRunnable dispatch system (Runnable.hpp, lines 249-364)

The dispatch loop, the producers calling `notify`, and `stop()` are embedded
as an interleaving step relation over a shared state.  Promises are numbered
in the order `notify` creates them. -/

/-- Position of the dispatch thread spawned by `ActiveRunnable::run` inside
its loop (line numbers refer to Runnable.hpp):
`head` — about to evaluate `while(_running.load())` (258);
`preLock` — read true, about to lock `_notifyLock` and test `_tasks.empty()` (260-261);
`waiting` — blocked in `_cv.wait(lock)`, lock released (261);
`woken` — signalled, about to reacquire the lock;
`checking` — holds the lock, about to run `if(!_running.load()) break` and then
read `_tasks[0]` (262-265);
`working d p` — lock released, running `__work(d)` for promise `p` (266-289);
`done` — exited the loop;
`crashed` — read `_tasks[0]` with `_tasks` empty. -/
inductive Pc where
  | head
  | preLock
  | waiting
  | woken
  | checking
  | working (d p : Nat)
  | done
  | crashed
deriving DecidableEq

/-- Shared state of one `ActiveRunnable<Nat, Nat>` after `run()` returned: the
atomic `_running` flag, the `_tasks` vector of (data, promise id) envelopes
(front first), the number of promises minted by `notify` so far, the
chronological log of `set_value` calls (promise id, value), and the dispatch
thread's position. -/
structure St where
  running : Bool
  tasks : List (Nat × Nat)
  nextId : Nat
  resolved : List (Nat × Nat)
  pc : Pc
deriving DecidableEq

/-- One interleaving step of the system.  `work` is the work step `__work` and
`vals` the data values a single producer passes to successive `notify` calls.
`notify` (lines 300-311) appends an envelope with a fresh promise at the back
of `_tasks` and signals `_cv`, all under `_notifyLock`; `stop` (lines 359-364)
stores false into `_running` and signals `_cv`, under the same lock.  Both
therefore require the dispatch thread not to hold the lock, which it does
exactly at `checking`; a signal wakes the dispatch thread only when it is
parked in `_cv.wait`. -/
inductive Step (work : Nat → Nat) (vals : List Nat) : St → St → Prop where
  | submit (s : St) (h : s.nextId < vals.length)
      (hl : s.pc ≠ .checking) (hw : s.pc ≠ .waiting) :
      Step work vals s { s with
        tasks := s.tasks ++ [(vals.getD s.nextId 0, s.nextId)],
        nextId := s.nextId + 1 }
  | submitWake (s : St) (h : s.nextId < vals.length) (hw : s.pc = .waiting) :
      Step work vals s { s with
        tasks := s.tasks ++ [(vals.getD s.nextId 0, s.nextId)],
        nextId := s.nextId + 1, pc := .woken }
  | stop (s : St) (hl : s.pc ≠ .checking) (hw : s.pc ≠ .waiting) :
      Step work vals s { s with running := false }
  | stopWake (s : St) (hw : s.pc = .waiting) :
      Step work vals s { s with running := false, pc := .woken }
  | loopExit (s : St) (h : s.pc = .head) (hr : s.running = false) :
      Step work vals s { s with pc := .done }
  | loopEnter (s : St) (h : s.pc = .head) (hr : s.running = true) :
      Step work vals s { s with pc := .preLock }
  | lockEmpty (s : St) (h : s.pc = .preLock) (he : s.tasks = []) :
      Step work vals s { s with pc := .waiting }
  | lockFull (s : St) (h : s.pc = .preLock) (he : s.tasks ≠ []) :
      Step work vals s { s with pc := .checking }
  | reacquire (s : St) (h : s.pc = .woken) :
      Step work vals s { s with pc := .checking }
  | breakStop (s : St) (h : s.pc = .checking) (hr : s.running = false) :
      Step work vals s { s with pc := .done }
  | take (s : St) (d p : Nat) (rest : List (Nat × Nat)) (h : s.pc = .checking)
      (hr : s.running = true) (ht : s.tasks = (d, p) :: rest) :
      Step work vals s { s with tasks := rest, pc := .working d p }
  | crash (s : St) (h : s.pc = .checking) (hr : s.running = true)
      (ht : s.tasks = []) :
      Step work vals s { s with pc := .crashed }
  | resolve (s : St) (d p : Nat) (h : s.pc = .working d p) :
      Step work vals s { s with
        resolved := s.resolved ++ [(p, work d)], pc := .head }

/-- The state right after a successful `run()`: flag set, dispatch thread at
the top of its loop, no tasks queued, no promises minted. -/
def initSt : St := ⟨true, [], 0, [], .head⟩

/-- States reachable from `initSt` by interleaving steps. -/
inductive Reach (work : Nat → Nat) (vals : List Nat) : St → Prop where
  | init : Reach work vals initSt
  | step {s s' : St} : Reach work vals s → Step work vals s s' → Reach work vals s'

/-- Multi-step reachability between two states. -/
inductive Steps (work : Nat → Nat) (vals : List Nat) : St → St → Prop where
  | refl (s : St) : Steps work vals s s
  | head {s s1 s2 : St} : Step work vals s s1 → Steps work vals s1 s2 →
      Steps work vals s s2

/-- The task envelopes created by producer calls `k, k+1, …, k+n-1`: data
value paired with promise id. -/
def seg (vals : List Nat) : Nat → Nat → List (Nat × Nat)
  | _, 0 => []
  | k, n + 1 => (vals.getD k 0, k) :: seg vals (k + 1) n

/-- The fulfillment log after the first `k` envelopes have been dispatched. -/
def rseg (work : Nat → Nat) (vals : List Nat) : Nat → List (Nat × Nat)
  | 0 => []
  | k + 1 => rseg work vals k ++ [(k, work (vals.getD k 0))]

/-- The envelope taken off the queue but not yet resolved, if any: the task
the dispatch thread is currently running `__work` on. -/
def inflight : Pc → List (Nat × Nat)
  | .working d p => [(d, p)]
  | _ => []

/-- The envelope taken off the queue but not yet resolved, if any, followed by
the queued envelopes. -/
def pendingOf (s : St) : List (Nat × Nat) :=
  inflight s.pc ++ s.tasks

/-- Inductive invariant of the dispatch system: some count `k` of envelopes
has been dispatched, the log holds exactly their results in order, the not yet
dispatched envelopes sit in submission order behind them, and a dispatch
thread that is past a wake-up with the flag still true always finds the queue
non-empty. -/
def Inv (work : Nat → Nat) (vals : List Nat) (s : St) : Prop :=
  (∃ k, k ≤ s.nextId ∧ s.nextId ≤ vals.length ∧
      s.resolved = rseg work vals k ∧ pendingOf s = seg vals k (s.nextId - k)) ∧
  ((s.pc = .woken ∨ s.pc = .checking) → s.running = true → s.tasks ≠ []) ∧
  s.pc ≠ .crashed

/-! ## Theorems -/

theorem SizedQueue.length_emplace_back {α : Type} (N : Nat) (q : List α) (x : α)
    (hN : 0 < N) (hq : q.length ≤ N) :
    (SizedQueue.emplace_back N q x).length ≤ N := by
  unfold SizedQueue.emplace_back
  split
  · next h =>
      simp only [List.length_append, List.length_tail, List.length_cons, List.length_nil]
      omega
  · next h =>
      simp only [List.length_append, List.length_cons, List.length_nil]
      omega

theorem SizedQueue.length_pushAll {α : Type} (N : Nat) (q : List α) (xs : List α)
    (hN : 0 < N) (hq : q.length ≤ N) :
    (SizedQueue.pushAll N q xs).length ≤ N := by
  induction xs generalizing q with
  | nil => exact hq
  | cons x xs ih =>
      exact ih (SizedQueue.emplace_back N q x)
        (SizedQueue.length_emplace_back N q x hN hq)

theorem SizedQueue.pushAll_eq_drop {α : Type} (N : Nat) (q : List α) (xs : List α)
    (hN : 0 < N) (hq : q.length ≤ N) :
    SizedQueue.pushAll N q xs = (q ++ xs).drop (q.length + xs.length - N) := by
  induction xs generalizing q with
  | nil =>
      have h0 : q.length - N = 0 := by omega
      simp [SizedQueue.pushAll, h0]
  | cons x xs ih =>
      by_cases h : q.length = N
      · have hqne : q ≠ [] := by
          intro he; subst he; simp only [List.length_nil] at h; omega
        obtain ⟨a, q', rfl⟩ := List.exists_cons_of_ne_nil hqne
        have h' : q'.length + 1 = N := by simpa using h
        have hstep : SizedQueue.pushAll N (a :: q') (x :: xs)
            = SizedQueue.pushAll N (q' ++ [x]) xs := by
          simp [SizedQueue.pushAll, SizedQueue.emplace_back, h']
        have hlen : (q' ++ [x]).length ≤ N := by
          simp only [List.length_append, List.length_cons, List.length_nil]; omega
        rw [hstep, ih (q' ++ [x]) hlen]
        have e1 : (q' ++ [x]).length + xs.length - N = q'.length + 1 + xs.length - N := by
          simp only [List.length_append, List.length_cons, List.length_nil]
        have e2 : (a :: q').length + (x :: xs).length - N
            = (q'.length + 1 + xs.length - N) + 1 := by
          simp only [List.length_cons]; omega
        have e3 : (a :: q') ++ x :: xs = a :: (q' ++ [x] ++ xs) := by simp
        rw [e1, e2, e3, List.drop_succ_cons]
      · have hstep : SizedQueue.pushAll N q (x :: xs)
            = SizedQueue.pushAll N (q ++ [x]) xs := by
          simp [SizedQueue.pushAll, SizedQueue.emplace_back, h]
        have hlen : (q ++ [x]).length ≤ N := by
          simp only [List.length_append, List.length_cons, List.length_nil]; omega
        rw [hstep, ih (q ++ [x]) hlen]
        have e1 : (q ++ [x]).length + xs.length - N = q.length + (x :: xs).length - N := by
          simp only [List.length_append, List.length_cons, List.length_nil]; omega
        have e2 : q ++ [x] ++ xs = q ++ x :: xs := by simp
        rw [e1, e2]


theorem seg_succ_def (vals : List Nat) (k n : Nat) :
    seg vals k (n + 1) = (vals.getD k 0, k) :: seg vals (k + 1) n := rfl

theorem rseg_succ_def (work : Nat → Nat) (vals : List Nat) (k : Nat) :
    rseg work vals (k + 1) = rseg work vals k ++ [(k, work (vals.getD k 0))] := rfl

theorem seg_snoc (vals : List Nat) (n : Nat) : ∀ k : Nat,
    seg vals k n ++ [(vals.getD (k + n) 0, k + n)] = seg vals k (n + 1) := by
  induction n with
  | zero => intro k; simp [seg]
  | succ n ih =>
      intro k
      rw [seg_succ_def, seg_succ_def, List.cons_append]
      have e : k + (n + 1) = (k + 1) + n := by omega
      rw [e, ih (k + 1)]

theorem mem_seg_le (vals : List Nat) (n : Nat) : ∀ k : Nat,
    ∀ x ∈ seg vals k n, k ≤ x.2 := by
  induction n with
  | zero => intro k x hx; simp [seg] at hx
  | succ n ih =>
      intro k x hx
      rw [seg_succ_def] at hx
      rcases List.mem_cons.mp hx with h | h
      · subst h; simp
      · have := ih (k + 1) x h; omega

theorem mem_rseg_lt (work : Nat → Nat) (vals : List Nat) (k : Nat) :
    ∀ x ∈ rseg work vals k, x.1 < k := by
  induction k with
  | zero => intro x hx; simp [rseg] at hx
  | succ k ih =>
      intro x hx
      rw [rseg_succ_def] at hx
      rcases List.mem_append.mp hx with h | h
      · have := ih x h; omega
      · simp only [List.mem_singleton] at h
        subst h; simp

theorem inv_step {work : Nat → Nat} {vals : List Nat} {s s' : St}
    (hs : Step work vals s s') (hi : Inv work vals s) : Inv work vals s' := by
  obtain ⟨⟨k, hk, hn, hres, hpend⟩, hne, hcr⟩ := hi
  cases hs with
  | submit h hl hw =>
      refine ⟨⟨k, ?_, ?_, hres, ?_⟩, ?_, hcr⟩
      · show k ≤ s.nextId + 1
        omega
      · show s.nextId + 1 ≤ vals.length
        omega
      · show inflight s.pc ++ (s.tasks ++ [(vals.getD s.nextId 0, s.nextId)])
            = seg vals k (s.nextId + 1 - k)
        rw [← List.append_assoc]
        unfold pendingOf at hpend
        rw [hpend]
        have e : (vals.getD s.nextId 0, s.nextId)
            = (vals.getD (k + (s.nextId - k)) 0, k + (s.nextId - k)) := by
          have : k + (s.nextId - k) = s.nextId := by omega
          rw [this]
        rw [e, seg_snoc]
        congr 1
        omega
      · intro _ _
        show s.tasks ++ [(vals.getD s.nextId 0, s.nextId)] ≠ []
        simp
  | submitWake h hw =>
      unfold pendingOf at hpend
      rw [hw] at hpend
      simp only [inflight, List.nil_append] at hpend
      refine ⟨⟨k, ?_, ?_, hres, ?_⟩, ?_, ?_⟩
      · show k ≤ s.nextId + 1
        omega
      · show s.nextId + 1 ≤ vals.length
        omega
      · show inflight Pc.woken ++ (s.tasks ++ [(vals.getD s.nextId 0, s.nextId)])
            = seg vals k (s.nextId + 1 - k)
        simp only [inflight, List.nil_append]
        rw [hpend]
        have e : (vals.getD s.nextId 0, s.nextId)
            = (vals.getD (k + (s.nextId - k)) 0, k + (s.nextId - k)) := by
          have : k + (s.nextId - k) = s.nextId := by omega
          rw [this]
        rw [e, seg_snoc]
        congr 1
        omega
      · intro _ _
        show s.tasks ++ [(vals.getD s.nextId 0, s.nextId)] ≠ []
        simp
      · show Pc.woken ≠ Pc.crashed
        decide
  | stop hl hw =>
      refine ⟨⟨k, hk, hn, hres, hpend⟩, ?_, hcr⟩
      intro _ hr
      exact absurd hr (by simp)
  | stopWake hw =>
      unfold pendingOf at hpend
      rw [hw] at hpend
      refine ⟨⟨k, hk, hn, hres, ?_⟩, ?_, ?_⟩
      · show inflight Pc.woken ++ s.tasks = seg vals k (s.nextId - k)
        simpa [inflight] using hpend
      · intro _ hr
        exact absurd hr (by simp)
      · show Pc.woken ≠ Pc.crashed
        decide
  | loopExit h hr =>
      unfold pendingOf at hpend
      rw [h] at hpend
      refine ⟨⟨k, hk, hn, hres, ?_⟩, ?_, ?_⟩
      · show inflight Pc.done ++ s.tasks = seg vals k (s.nextId - k)
        simpa [inflight] using hpend
      · intro hpc _
        rcases hpc with hpc | hpc <;> exact Pc.noConfusion hpc
      · show Pc.done ≠ Pc.crashed
        decide
  | loopEnter h hr =>
      unfold pendingOf at hpend
      rw [h] at hpend
      refine ⟨⟨k, hk, hn, hres, ?_⟩, ?_, ?_⟩
      · show inflight Pc.preLock ++ s.tasks = seg vals k (s.nextId - k)
        simpa [inflight] using hpend
      · intro hpc _
        rcases hpc with hpc | hpc <;> exact Pc.noConfusion hpc
      · show Pc.preLock ≠ Pc.crashed
        decide
  | lockEmpty h he =>
      unfold pendingOf at hpend
      rw [h] at hpend
      refine ⟨⟨k, hk, hn, hres, ?_⟩, ?_, ?_⟩
      · show inflight Pc.waiting ++ s.tasks = seg vals k (s.nextId - k)
        simpa [inflight] using hpend
      · intro hpc _
        rcases hpc with hpc | hpc <;> exact Pc.noConfusion hpc
      · show Pc.waiting ≠ Pc.crashed
        decide
  | lockFull h he =>
      unfold pendingOf at hpend
      rw [h] at hpend
      refine ⟨⟨k, hk, hn, hres, ?_⟩, ?_, ?_⟩
      · show inflight Pc.checking ++ s.tasks = seg vals k (s.nextId - k)
        simpa [inflight] using hpend
      · intro _ _
        exact he
      · show Pc.checking ≠ Pc.crashed
        decide
  | reacquire h =>
      unfold pendingOf at hpend
      rw [h] at hpend
      refine ⟨⟨k, hk, hn, hres, ?_⟩, ?_, ?_⟩
      · show inflight Pc.checking ++ s.tasks = seg vals k (s.nextId - k)
        simpa [inflight] using hpend
      · intro _ hr
        exact hne (Or.inl h) hr
      · show Pc.checking ≠ Pc.crashed
        decide
  | breakStop h hr =>
      unfold pendingOf at hpend
      rw [h] at hpend
      refine ⟨⟨k, hk, hn, hres, ?_⟩, ?_, ?_⟩
      · show inflight Pc.done ++ s.tasks = seg vals k (s.nextId - k)
        simpa [inflight] using hpend
      · intro hpc _
        rcases hpc with hpc | hpc <;> exact Pc.noConfusion hpc
      · show Pc.done ≠ Pc.crashed
        decide
  | take d p rest h hr ht =>
      unfold pendingOf at hpend
      rw [h, ht] at hpend
      simp only [inflight, List.nil_append] at hpend
      refine ⟨⟨k, hk, hn, hres, ?_⟩, ?_, ?_⟩
      · show inflight (Pc.working d p) ++ rest = seg vals k (s.nextId - k)
        simpa [inflight] using hpend
      · intro hpc _
        rcases hpc with hpc | hpc <;> exact Pc.noConfusion hpc
      · show Pc.working d p ≠ Pc.crashed
        exact fun hx => Pc.noConfusion hx
  | crash h hr ht =>
      exact absurd ht (hne (Or.inr h) hr)
  | resolve d p h =>
      unfold pendingOf at hpend
      rw [h] at hpend
      simp only [inflight, List.singleton_append] at hpend
      cases hm : s.nextId - k with
      | zero =>
          rw [hm] at hpend
          exact absurd hpend (by simp [seg])
      | succ m =>
          rw [hm, seg_succ_def] at hpend
          injection hpend with h1 h2
          injection h1 with hd hp
          refine ⟨⟨k + 1, ?_, hn, ?_, ?_⟩, ?_, ?_⟩
          · show k + 1 ≤ s.nextId
            omega
          · show s.resolved ++ [(p, work d)] = rseg work vals (k + 1)
            rw [hres, hp, hd, rseg_succ_def]
          · show inflight Pc.head ++ s.tasks = seg vals (k + 1) (s.nextId - (k + 1))
            simp only [inflight, List.nil_append]
            rw [h2]
            congr 1
            omega
          · intro hpc _
            rcases hpc with hpc | hpc <;> exact Pc.noConfusion hpc
          · show Pc.head ≠ Pc.crashed
            decide

theorem inv_init (work : Nat → Nat) (vals : List Nat) : Inv work vals initSt := by
  refine ⟨⟨0, Nat.le_refl 0, Nat.zero_le _, rfl, rfl⟩, ?_, ?_⟩
  · intro hpc _
    rcases hpc with hpc | hpc <;> exact Pc.noConfusion hpc
  · show Pc.head ≠ Pc.crashed
    decide

theorem inv_of_reach {work : Nat → Nat} {vals : List Nat} {s : St}
    (h : Reach work vals s) : Inv work vals s := by
  induction h with
  | init => exact inv_init work vals
  | step _ hs ih => exact inv_step hs ih

/-- C2: for every SizedQueue of capacity N > 0 and every sequence of M pushes
(push_back and emplace_back coincide) with M > N, the queue afterwards holds
exactly the last N items pushed, in oldest-first order, and the size never
exceeds N at any point along the way. -/
theorem c2_sizedQueue_overflow {α : Type} (N : Nat) (xs : List α)
    (hN : 0 < N) (hM : N < xs.length) :
    SizedQueue.pushAll N [] xs = xs.drop (xs.length - N) ∧
    (SizedQueue.pushAll N [] xs).length = N ∧
    ∀ k : Nat, (SizedQueue.pushAll N [] (xs.take k)).length ≤ N := by
  have h := SizedQueue.pushAll_eq_drop N [] xs hN (by simp)
  have h' : SizedQueue.pushAll N [] xs = xs.drop (xs.length - N) := by simpa using h
  refine ⟨h', ?_, ?_⟩
  · rw [h', List.length_drop]
    omega
  · intro k
    exact SizedQueue.length_pushAll N [] (xs.take k) hN (by simp)

theorem c2_witness :
    0 < 3 ∧ 3 < ([1, 2, 3, 4, 5] : List Nat).length ∧
    SizedQueue.pushAll 3 [] ([1, 2, 3, 4, 5] : List Nat) = [3, 4, 5] := by
  refine ⟨by decide, by decide, ?_⟩
  have h := (c2_sizedQueue_overflow 3 ([1, 2, 3, 4, 5] : List Nat)
    (by decide) (by decide)).1
  rw [h]
  decide

/-- C3: for every ContinuousWorker (Runnable) and every QueuedWorker
(ActiveRunnable) that has never stopped, the first run() call does not raise,
and a second run() call on the resulting state raises AlreadyRunningException
synchronously. -/
theorem c3_second_run_raises (s : RunnableSt) (a : ActiveApiSt)
    (hs : s.running = false) (ha : a.running = false) :
    (∀ e, Runnable.run s ≠ Except.error e) ∧
    (∀ s1 t, Runnable.run s = Except.ok (s1, t) →
        Runnable.run s1 = Except.error RunError.alreadyRunning) ∧
    (∀ e, ActiveRunnable.run a ≠ Except.error e) ∧
    (∀ a1, ActiveRunnable.run a = Except.ok a1 →
        ActiveRunnable.run a1 = Except.error RunError.alreadyRunning) := by
  refine ⟨?_, ?_, ?_, ?_⟩
  · intro e he
    simp [Runnable.run, hs] at he
  · intro s1 t h
    simp only [Runnable.run, hs, Bool.false_eq_true, if_false] at h
    injection h with h'
    injection h' with hA hB
    subst hA
    simp [Runnable.run]
  · intro e he
    simp [ActiveRunnable.run, ha] at he
  · intro a1 h
    simp only [ActiveRunnable.run, ha, Bool.false_eq_true, if_false] at h
    injection h with h'
    subst h'
    simp [ActiveRunnable.run]

theorem c3_witness :
    (Runnable.run (⟨false, none, (0, 0), ""⟩ : RunnableSt)
        ≠ Except.error RunError.alreadyRunning) ∧
    Runnable.run (⟨true, some ⟨true, 0, 0, "", []⟩, (0, 0), ""⟩ : RunnableSt)
        = Except.error RunError.alreadyRunning ∧
    (ActiveRunnable.run (⟨false, (0, 0), ""⟩ : ActiveApiSt)
        ≠ Except.error RunError.alreadyRunning) ∧
    ActiveRunnable.run (⟨true, (0, 0), ""⟩ : ActiveApiSt)
        = Except.error RunError.alreadyRunning := by
  have h := c3_second_run_raises (⟨false, none, (0, 0), ""⟩ : RunnableSt)
    (⟨false, (0, 0), ""⟩ : ActiveApiSt) rfl rfl
  exact ⟨h.1 _, h.2.1 _ _ rfl, h.2.2.1 _, h.2.2.2 _ rfl⟩

/-- C5 (code bug): for a ContinuousWorker whose work step raises at some loop
iteration, the error does propagate out of the loop and the running flag is
not reset, but the completion future returned by run() does NOT carry the
error: the thread body of ThreadDetail::start has no handler, so
_promise.set_value() is skipped and the exception escapes the top-level thread
function; the future stays pending forever (and the C++ process aborts via
std::terminate).  Evaluated here at a work step that raises error 7 on its
first iteration. -/
theorem c5_workstep_error_future_never_set :
    Runnable.loop (fun _ => Except.error (7 : Nat)) 0 5 = Except.error 7 ∧
    ThreadDetail.start (Runnable.loop (fun _ => Except.error (7 : Nat)) 0 5)
      = BodyOutcome.escaped 7 ∧
    futureOf (ThreadDetail.start (Runnable.loop (fun _ => Except.error (7 : Nat)) 0 5))
      = FutureState.pending ∧
    futureOf (ThreadDetail.start (Runnable.loop (fun _ => Except.error (7 : Nat)) 0 5))
      ≠ FutureState.exception 7 :=
  ⟨rfl, rfl, rfl, by decide⟩

theorem c6_counterexample :
    ActiveRunnable.dispatchDrain
        (fun d => if d = 1 then Except.error 9 else Except.ok d)
        [(0, 0), (1, 1), (2, 2)]
      = ([(0, 0)], some (9, 1, [(2, 2)])) ∧
    (2, 2) ∉ (ActiveRunnable.dispatchDrain
        (fun d => if d = 1 then Except.error 9 else Except.ok d)
        [(0, 0), (1, 1), (2, 2)]).1 ∧
    (1 : Nat) ∉ ((ActiveRunnable.dispatchDrain
        (fun d => if d = 1 then Except.error 9 else Except.ok d)
        [(0, 0), (1, 1), (2, 2)]).1).map Prod.fst := by
  refine ⟨rfl, by decide, by decide⟩

/-- C6 (amended): an error raised inside the work step for one task is not
caught: that task's own result channel is never fulfilled, the exception
propagates out of and terminates the dispatch loop, and the tasks queued
behind the failing one are never dispatched; only the tasks processed before
the failure have their promises fulfilled, in order. -/
theorem c6_amended_workstep_error_kills_loop (work : Nat → Except Nat Nat)
    (pre : List (Nat × Nat)) (d p e : Nat) (post : List (Nat × Nat))
    (hok : ∀ x ∈ pre, ∃ v, work x.1 = Except.ok v)
    (he : work d = Except.error e) :
    (ActiveRunnable.dispatchDrain work (pre ++ (d, p) :: post)).2 = some (e, p, post) ∧
    ((ActiveRunnable.dispatchDrain work (pre ++ (d, p) :: post)).1).map Prod.fst
      = pre.map Prod.snd := by
  induction pre with
  | nil =>
      simp [ActiveRunnable.dispatchDrain, he]
  | cons x pre ih =>
      obtain ⟨xd, xp⟩ := x
      obtain ⟨v, hv⟩ := hok (xd, xp) (List.mem_cons_self (xd, xp) pre)
      have ih2 := ih (fun y hy => hok y (List.mem_cons_of_mem (xd, xp) hy))
      simp only [List.cons_append, ActiveRunnable.dispatchDrain, hv]
      refine ⟨ih2.1, ?_⟩
      simp only [List.map_cons]
      exact congrArg (fun l => xp :: l) ih2.2

theorem c6_witness :
    (∀ x ∈ ([(0, 0)] : List (Nat × Nat)), ∃ v,
        (fun d => if d = 1 then Except.error 9 else Except.ok d) x.1 = Except.ok v) ∧
    (ActiveRunnable.dispatchDrain
        (fun d => if d = 1 then Except.error 9 else Except.ok d)
        ([(0, 0)] ++ (1, 1) :: [(2, 2)])).2 = some (9, 1, [(2, 2)]) ∧
    ((ActiveRunnable.dispatchDrain
        (fun d => if d = 1 then Except.error 9 else Except.ok d)
        ([(0, 0)] ++ (1, 1) :: [(2, 2)])).1).map Prod.fst
      = ([(0, 0)] : List (Nat × Nat)).map Prod.snd := by
  have hok : ∀ x ∈ ([(0, 0)] : List (Nat × Nat)), ∃ v,
      (fun d => if d = 1 then Except.error 9 else Except.ok d) x.1 = Except.ok v := by
    intro x hx
    simp only [List.mem_singleton] at hx
    subst hx
    exact ⟨0, rfl⟩
  have h := c6_amended_workstep_error_kills_loop
    (fun d => if d = 1 then Except.error 9 else Except.ok d)
    [(0, 0)] 1 1 9 [(2, 2)] hok rfl
  exact ⟨hok, h.1, h.2⟩

theorem c7_counterexample :
    (Runnable.set_priority (⟨false, none, (0, 0), ""⟩ : RunnableSt) (1, 5) 0 0).map
        Prod.snd = some false ∧
    (Runnable.set_priority (⟨false, none, (0, 0), ""⟩ : RunnableSt) (1, 5) 0 0).map
        Prod.snd ≠ some true :=
  ⟨rfl, by decide⟩

/-- C7 (amended): for every worker whose thread has not started (running flag
false), set_priority(p) caches p — a subsequent get_priority() returns p and a
later run() applies p to the spawned thread — but it reports failure (returns
false): the worker delegates to the owned ThreadHandle only when already
running, so the handle's cache-and-report-success path is never taken here. -/
theorem c7_amended_set_priority_before_run (s : RunnableSt) (p : Nat × Nat)
    (osRet : Int) (errno : Nat) (hs : s.running = false) :
    Runnable.set_priority s p osRet errno = some ({ s with priority := p }, false) ∧
    Runnable.get_priority { s with priority := p } = p ∧
    ∀ s2 t, Runnable.run { s with priority := p } = Except.ok (s2, t) →
      ThreadDetail.get_priority t = p ∧ t.started = true := by
  refine ⟨?_, rfl, ?_⟩
  · simp [Runnable.set_priority, hs]
  · have hrun : Runnable.run { s with priority := p }
        = Except.ok ({ s with
              priority := p, running := true, t := some ⟨true, p.1, p.2, s.name, []⟩ },
            (⟨true, p.1, p.2, s.name, []⟩ : ThreadSt)) := by
      simp [Runnable.run, hs, ThreadDetail.set_priority, ThreadDetail.set_name]
    intro s2 t h
    rw [hrun] at h
    injection h with h'
    injection h' with hA hB
    subst hB
    exact ⟨by simp [ThreadDetail.get_priority], rfl⟩

theorem c7_witness :
    Runnable.set_priority (⟨false, none, (0, 0), ""⟩ : RunnableSt) (1, 5) 0 0
      = some (⟨false, none, (1, 5), ""⟩, false) ∧
    Runnable.get_priority (⟨false, none, (1, 5), ""⟩ : RunnableSt) = (1, 5) := by
  have h := c7_amended_set_priority_before_run
    (⟨false, none, (0, 0), ""⟩ : RunnableSt) (1, 5) 0 0 rfl
  exact ⟨h.1, h.2.1⟩

/-- C8 (code bug): Linux ThreadDetail::set_priority on a started thread with a
non-default priority inverts the success test (`false == sched_setscheduler(...)`
is true exactly when the call returned 0, i.e. succeeded): when the OS call
fails (returns -1) the code skips the error branch, caches p and returns true
with nothing logged; when the OS call succeeds (returns 0) the code logs errno
and returns false, leaving the cache unchanged.  The claim (and the function's
own doc comment) says a failing call logs the error code and returns false. -/
theorem c8_inverted_error_check :
    ThreadDetail.set_priority (⟨true, 0, 0, "", []⟩ : ThreadSt) (1, 5) (-1) 22
      = (⟨true, 1, 5, "", []⟩, true) ∧
    ThreadDetail.set_priority (⟨true, 0, 0, "", []⟩ : ThreadSt) (1, 5) 0 22
      = (⟨true, 0, 0, "", [22]⟩, false) := by
  constructor <;> rfl

/-- C9: no OS thread remains alive after a worker instance is destroyed, even
when stop() was never called and the worker is dropped while its thread is
live: dropping the worker releases the only shared_ptr reference to the owned
Thread, whose deleter joins (running → terminated) before delete releases the
handle's memory. -/
theorem c9_destroy_joins :
    (∀ ph : ThreadPhase, Runnable.destroy ph ≠ ThreadPhase.running) ∧
    Runnable.destroy ThreadPhase.running = ThreadPhase.terminated :=
  ⟨fun ph => by cases ph <;> decide, rfl⟩

/-- C10: whenever the dispatch loop passes the stop check with the running
flag still true, the unchecked front access `_tasks[0]` and the erase of the
first element are safe: in every reachable state where the dispatch thread is
about to perform the removal (`checking`) with the flag true, the task queue
is non-empty — every condition-variable wake that leaves the flag true stems
from a `notify` that pushed an envelope under the same lock — and consequently
the out-of-bounds access (`crashed`) is unreachable. -/
theorem c10_front_access_safe {work : Nat → Nat} {vals : List Nat} {s : St}
    (h : Reach work vals s) :
    (s.pc = Pc.checking → s.running = true → s.tasks ≠ []) ∧ s.pc ≠ Pc.crashed := by
  obtain ⟨-, hb, hc⟩ := inv_of_reach h
  exact ⟨fun hpc hr => hb (Or.inr hpc) hr, hc⟩

theorem reach_submit {work : Nat → Nat} {vals : List Nat} {s : St}
    (h : Reach work vals s) (hn : s.nextId < vals.length)
    (hl : s.pc ≠ Pc.checking) (hw : s.pc ≠ Pc.waiting) :
    Reach work vals { s with
      tasks := s.tasks ++ [(vals.getD s.nextId 0, s.nextId)],
      nextId := s.nextId + 1 } :=
  Reach.step h (@Step.submit work vals s hn hl hw)

theorem reach_round {work : Nat → Nat} {vals : List Nat} {s : St}
    (h : Reach work vals s) (d p : Nat) (rest : List (Nat × Nat))
    (hpc : s.pc = Pc.head) (hr : s.running = true) (ht : s.tasks = (d, p) :: rest) :
    Reach work vals { s with
      tasks := rest,
      resolved := s.resolved ++ [(p, work d)],
      pc := Pc.head } := by
  have h1 := Reach.step h (@Step.loopEnter work vals s hpc hr)
  have h2 := Reach.step h1 (@Step.lockFull work vals _ rfl (by simp [ht]))
  have h3 := Reach.step h2 (@Step.take work vals _ d p rest rfl hr ht)
  exact Reach.step h3 (@Step.resolve work vals _ d p rfl)

theorem c10_witness :
    ((⟨true, [(7, 0)], 1, [], Pc.checking⟩ : St).pc = Pc.checking →
        (⟨true, [(7, 0)], 1, [], Pc.checking⟩ : St).running = true →
        (⟨true, [(7, 0)], 1, [], Pc.checking⟩ : St).tasks ≠ []) ∧
    (⟨true, [(7, 0)], 1, [], Pc.checking⟩ : St).pc ≠ Pc.crashed := by
  have h0 : Reach (fun x => x) [7] initSt := Reach.init
  have h1 : Reach (fun x => x) [7] ⟨true, [(7, 0)], 1, [], Pc.head⟩ :=
    reach_submit h0 (by decide) (by decide) (by decide)
  have h2 : Reach (fun x => x) [7] ⟨true, [(7, 0)], 1, [], Pc.preLock⟩ :=
    Reach.step h1 (@Step.loopEnter (fun x => x) [7] _ rfl rfl)
  have h3 : Reach (fun x => x) [7] ⟨true, [(7, 0)], 1, [], Pc.checking⟩ :=
    Reach.step h2 (@Step.lockFull (fun x => x) [7] _ rfl (by decide))
  exact c10_front_access_safe h3

/-- C1: for a QueuedWorker (ActiveRunnable with Nat data and Nat result) whose
work step is the identity function, a single producer submitting the six
values 0..5 gets result futures fulfilled, in submission order, with 0..5:
in every reachable state in which all six notify calls have happened, the
queue has been drained and no task is in flight, the chronological fulfillment
log is exactly [(0,0),(1,1),(2,2),(3,3),(4,4),(5,5)] — each promise was
fulfilled with the work step's value on its own submission, front tasks were
dispatched strictly first. -/
theorem c1_fifo_identity {s : St}
    (h : Reach (fun x => x) [0, 1, 2, 3, 4, 5] s)
    (hn : s.nextId = 6) (ht : s.tasks = [])
    (hw : ∀ d p : Nat, s.pc ≠ Pc.working d p) :
    s.resolved = [(0, 0), (1, 1), (2, 2), (3, 3), (4, 4), (5, 5)] := by
  obtain ⟨⟨k, hk, -, hres, hpend⟩, -, -⟩ := inv_of_reach h
  have hin : inflight s.pc = [] := by
    cases hpc : s.pc with
    | working d p => exact absurd hpc (hw d p)
    | head => rfl
    | preLock => rfl
    | waiting => rfl
    | woken => rfl
    | checking => rfl
    | done => rfl
    | crashed => rfl
  unfold pendingOf at hpend
  rw [hin, ht, hn] at hpend
  simp only [List.append_nil, List.nil_append] at hpend
  rw [hn] at hk
  have hk6 : k = 6 := by
    by_contra hne
    have h1 : 6 - k = (6 - k - 1) + 1 := by omega
    rw [h1, seg_succ_def] at hpend
    exact List.noConfusion hpend
  subst hk6
  rw [hres]
  decide

theorem c1_witness :
    (⟨true, [], 6, [(0, 0), (1, 1), (2, 2), (3, 3), (4, 4), (5, 5)], Pc.head⟩ : St).resolved
      = [(0, 0), (1, 1), (2, 2), (3, 3), (4, 4), (5, 5)] := by
  have g0 : Reach (fun x => x) [0, 1, 2, 3, 4, 5] initSt := Reach.init
  have g1 : Reach (fun x => x) [0, 1, 2, 3, 4, 5]
      ⟨true, [(0, 0)], 1, [], Pc.head⟩ :=
    reach_submit g0 (by decide) (by decide) (by decide)
  have g2 : Reach (fun x => x) [0, 1, 2, 3, 4, 5]
      ⟨true, [(0, 0), (1, 1)], 2, [], Pc.head⟩ :=
    reach_submit g1 (by decide) (by decide) (by decide)
  have g3 : Reach (fun x => x) [0, 1, 2, 3, 4, 5]
      ⟨true, [(0, 0), (1, 1), (2, 2)], 3, [], Pc.head⟩ :=
    reach_submit g2 (by decide) (by decide) (by decide)
  have g4 : Reach (fun x => x) [0, 1, 2, 3, 4, 5]
      ⟨true, [(0, 0), (1, 1), (2, 2), (3, 3)], 4, [], Pc.head⟩ :=
    reach_submit g3 (by decide) (by decide) (by decide)
  have g5 : Reach (fun x => x) [0, 1, 2, 3, 4, 5]
      ⟨true, [(0, 0), (1, 1), (2, 2), (3, 3), (4, 4)], 5, [], Pc.head⟩ :=
    reach_submit g4 (by decide) (by decide) (by decide)
  have g6 : Reach (fun x => x) [0, 1, 2, 3, 4, 5]
      ⟨true, [(0, 0), (1, 1), (2, 2), (3, 3), (4, 4), (5, 5)], 6, [], Pc.head⟩ :=
    reach_submit g5 (by decide) (by decide) (by decide)
  have r1 : Reach (fun x => x) [0, 1, 2, 3, 4, 5]
      ⟨true, [(1, 1), (2, 2), (3, 3), (4, 4), (5, 5)], 6, [(0, 0)], Pc.head⟩ :=
    reach_round g6 0 0 [(1, 1), (2, 2), (3, 3), (4, 4), (5, 5)] rfl rfl rfl
  have r2 : Reach (fun x => x) [0, 1, 2, 3, 4, 5]
      ⟨true, [(2, 2), (3, 3), (4, 4), (5, 5)], 6, [(0, 0), (1, 1)], Pc.head⟩ :=
    reach_round r1 1 1 [(2, 2), (3, 3), (4, 4), (5, 5)] rfl rfl rfl
  have r3 : Reach (fun x => x) [0, 1, 2, 3, 4, 5]
      ⟨true, [(3, 3), (4, 4), (5, 5)], 6, [(0, 0), (1, 1), (2, 2)], Pc.head⟩ :=
    reach_round r2 2 2 [(3, 3), (4, 4), (5, 5)] rfl rfl rfl
  have r4 : Reach (fun x => x) [0, 1, 2, 3, 4, 5]
      ⟨true, [(4, 4), (5, 5)], 6, [(0, 0), (1, 1), (2, 2), (3, 3)], Pc.head⟩ :=
    reach_round r3 3 3 [(4, 4), (5, 5)] rfl rfl rfl
  have r5 : Reach (fun x => x) [0, 1, 2, 3, 4, 5]
      ⟨true, [(5, 5)], 6, [(0, 0), (1, 1), (2, 2), (3, 3), (4, 4)], Pc.head⟩ :=
    reach_round r4 4 4 [(5, 5)] rfl rfl rfl
  have r6 : Reach (fun x => x) [0, 1, 2, 3, 4, 5]
      ⟨true, [], 6, [(0, 0), (1, 1), (2, 2), (3, 3), (4, 4), (5, 5)], Pc.head⟩ :=
    reach_round r5 5 5 [] rfl rfl rfl
  exact c1_fifo_identity r6 rfl rfl (fun d p hx => Pc.noConfusion hx)

theorem steps_stopped_frozen {work : Nat → Nat} {vals : List Nat} {s s2 : St}
    (hs : Steps work vals s s2) (hr0 : s.running = false) :
    s2.running = false ∧ (∃ app, s2.tasks = s.tasks ++ app) ∧
      (s2.resolved = s.resolved ∨
        ∃ d p, s.pc = Pc.working d p ∧ s2.resolved = s.resolved ++ [(p, work d)]) := by
  induction hs with
  | refl s => exact ⟨hr0, ⟨[], by simp⟩, Or.inl rfl⟩
  | @head s0 s1 s2x hstep htail ih =>
      cases hstep with
      | submit h hl hw =>
          obtain ⟨h2r, ⟨a, ha⟩, hres⟩ := ih hr0
          refine ⟨h2r, ⟨(vals.getD s0.nextId 0, s0.nextId) :: a, ?_⟩, hres⟩
          rw [ha, List.append_assoc]
          rfl
      | submitWake h hw =>
          obtain ⟨h2r, ⟨a, ha⟩, hres⟩ := ih hr0
          refine ⟨h2r, ⟨(vals.getD s0.nextId 0, s0.nextId) :: a, ?_⟩, ?_⟩
          · rw [ha, List.append_assoc]
            rfl
          · rcases hres with hres | ⟨d, p, hpc, -⟩
            · exact Or.inl hres
            · exact absurd hpc (fun hx => Pc.noConfusion hx)
      | stop hl hw =>
          obtain ⟨h2r, ⟨a, ha⟩, hres⟩ := ih rfl
          exact ⟨h2r, ⟨a, ha⟩, hres⟩
      | stopWake hw =>
          obtain ⟨h2r, ⟨a, ha⟩, hres⟩ := ih rfl
          refine ⟨h2r, ⟨a, ha⟩, ?_⟩
          rcases hres with hres | ⟨d, p, hpc, -⟩
          · exact Or.inl hres
          · exact absurd hpc (fun hx => Pc.noConfusion hx)
      | loopExit h hr =>
          obtain ⟨h2r, ⟨a, ha⟩, hres⟩ := ih hr0
          refine ⟨h2r, ⟨a, ha⟩, ?_⟩
          rcases hres with hres | ⟨d, p, hpc, -⟩
          · exact Or.inl hres
          · exact absurd hpc (fun hx => Pc.noConfusion hx)
      | loopEnter h hr =>
          rw [hr0] at hr
          exact Bool.noConfusion hr
      | lockEmpty h he =>
          obtain ⟨h2r, ⟨a, ha⟩, hres⟩ := ih hr0
          refine ⟨h2r, ⟨a, ha⟩, ?_⟩
          rcases hres with hres | ⟨d, p, hpc, -⟩
          · exact Or.inl hres
          · exact absurd hpc (fun hx => Pc.noConfusion hx)
      | lockFull h he =>
          obtain ⟨h2r, ⟨a, ha⟩, hres⟩ := ih hr0
          refine ⟨h2r, ⟨a, ha⟩, ?_⟩
          rcases hres with hres | ⟨d, p, hpc, -⟩
          · exact Or.inl hres
          · exact absurd hpc (fun hx => Pc.noConfusion hx)
      | reacquire h =>
          obtain ⟨h2r, ⟨a, ha⟩, hres⟩ := ih hr0
          refine ⟨h2r, ⟨a, ha⟩, ?_⟩
          rcases hres with hres | ⟨d, p, hpc, -⟩
          · exact Or.inl hres
          · exact absurd hpc (fun hx => Pc.noConfusion hx)
      | breakStop h hr =>
          obtain ⟨h2r, ⟨a, ha⟩, hres⟩ := ih hr0
          refine ⟨h2r, ⟨a, ha⟩, ?_⟩
          rcases hres with hres | ⟨d, p, hpc, -⟩
          · exact Or.inl hres
          · exact absurd hpc (fun hx => Pc.noConfusion hx)
      | take d p rest h hr ht =>
          rw [hr0] at hr
          exact Bool.noConfusion hr
      | crash h hr ht =>
          rw [hr0] at hr
          exact Bool.noConfusion hr
      | resolve d p h =>
          obtain ⟨h2r, ⟨a, ha⟩, hres⟩ := ih hr0
          refine ⟨h2r, ⟨a, ha⟩, ?_⟩
          rcases hres with hres | ⟨d1, p1, hpc, -⟩
          · exact Or.inr ⟨d, p, h, hres⟩
          · exact absurd hpc (fun hx => Pc.noConfusion hx)

/-- C4: for every QueuedWorker, once the running flag is false (after stop()),
every task still queued is never dispatched and its promise is never
fulfilled: in any continuation of the execution the flag stays false, the
queue is never popped (tasks only accumulate behind the existing ones), and no
queued promise id ever appears among the fulfilled ones — the dispatch loop
exits on wake without draining the queue. -/
theorem c4_stop_abandons_queued_tasks {work : Nat → Nat} {vals : List Nat}
    {s s2 : St} (hre : Reach work vals s) (hstop : s.running = false)
    (hs : Steps work vals s s2) :
    s2.running = false ∧ (∃ app, s2.tasks = s.tasks ++ app) ∧
      ∀ q ∈ s.tasks, q.2 ∉ s2.resolved.map Prod.fst := by
  obtain ⟨h2r, htasks, hres⟩ := steps_stopped_frozen hs hstop
  refine ⟨h2r, htasks, ?_⟩
  intro q hq hmem
  obtain ⟨⟨k, hk, hn, hrs, hpend⟩, -, -⟩ := inv_of_reach hre
  have hqp : q ∈ pendingOf s := by
    unfold pendingOf
    exact List.mem_append_right _ hq
  rw [hpend] at hqp
  have hqk : k ≤ q.2 := mem_seg_le vals _ k q hqp
  rcases hres with hres | ⟨d, p, hpc, hres⟩
  · rw [hres, hrs] at hmem
    obtain ⟨x, hx, hxq⟩ := List.mem_map.mp hmem
    have hxk := mem_rseg_lt work vals k x hx
    omega
  · unfold pendingOf at hpend
    rw [hpc] at hpend
    simp only [inflight, List.singleton_append] at hpend
    cases hm : s.nextId - k with
    | zero =>
        rw [hm] at hpend
        exact absurd hpend (by simp [seg])
    | succ m =>
        rw [hm, seg_succ_def] at hpend
        injection hpend with h1 h2
        injection h1 with hd hp
        have hq2 : k + 1 ≤ q.2 := by
          refine mem_seg_le vals m (k + 1) q ?_
          rw [← h2]
          exact hq
        rw [hres, hrs, List.map_append] at hmem
        rcases List.mem_append.mp hmem with hm1 | hm1
        · obtain ⟨x, hx, hxq⟩ := List.mem_map.mp hm1
          have hxk := mem_rseg_lt work vals k x hx
          omega
        · simp only [List.map_cons, List.map_nil, List.mem_singleton] at hm1
          omega

theorem c4_witness :
    (⟨false, [(7, 0)], 1, [], Pc.done⟩ : St).running = false ∧
    (∃ app, (⟨false, [(7, 0)], 1, [], Pc.done⟩ : St).tasks
        = (⟨false, [(7, 0)], 1, [], Pc.head⟩ : St).tasks ++ app) ∧
    ∀ q ∈ (⟨false, [(7, 0)], 1, [], Pc.head⟩ : St).tasks,
      q.2 ∉ ((⟨false, [(7, 0)], 1, [], Pc.done⟩ : St)).resolved.map Prod.fst := by
  have h0 : Reach (fun x => x) [7] initSt := Reach.init
  have h1 : Reach (fun x => x) [7] ⟨true, [(7, 0)], 1, [], Pc.head⟩ :=
    reach_submit h0 (by decide) (by decide) (by decide)
  have h2 : Reach (fun x => x) [7] ⟨false, [(7, 0)], 1, [], Pc.head⟩ :=
    Reach.step h1 (@Step.stop (fun x => x) [7] _ (by decide) (by decide))
  have hs : Steps (fun x => x) [7]
      (⟨false, [(7, 0)], 1, [], Pc.head⟩ : St)
      (⟨false, [(7, 0)], 1, [], Pc.done⟩ : St) :=
    Steps.head (@Step.loopExit (fun x => x) [7] _ rfl rfl)
      (Steps.refl _)
  exact c4_stop_abandons_queued_tasks h2 rfl hs

end CommonLib
